import Mathlib

/-!
Verification of the threaded AST-visitor pipeline in
`slides/examples/ast_visitor_1/main.cpp`.

The program partitions the list of source files into `kThreadsCount` contiguous
chunks, runs one clang tool per chunk on its own thread, has each thread write
one line per translation unit (basename of the file followed by the extracted
variable names, sorted case-insensitively) into a private output file, joins all
threads, and finally concatenates the per-thread files and sorts the lines into
`output.txt`.

Strings are modelled as lists of byte values (`Str`), matching byte-wise
`std::string` operations.
-/

namespace AstVisitor1

/-- A byte string: `std::string` modelled as the list of its byte values. -/
abbrev Str := List Nat

/-- `std::tolower` in the default C locale on ASCII bytes: maps bytes 65..90
(uppercase letters) to 97..122, all other byte values unchanged. -/
def toLowerByte (c : Nat) : Nat := if 65 ≤ c ∧ c ≤ 90 then c + 32 else c

/-- The comparator passed to `std::sort` in `MyAstConsumer::flushToFile`
(main.cpp lines 77-83): scan the common prefix, and at the first position where
the `tolower`-folded bytes differ return their `<` comparison; if the whole
common prefix agrees under folding, return `a.size() < b.size()`. -/
def factLt : Str → Str → Bool
  | [], [] => false
  | [], _ :: _ => true
  | _ :: _, [] => false
  | a :: as, b :: bs =>
    if toLowerByte a = toLowerByte b then factLt as bs
    else decide (toLowerByte a < toLowerByte b)

/-- The non-strict order induced by `factLt`: `a` may precede `b` in a
`std::sort` output iff `b` is not strictly below `a`. -/
def factLe (a b : Str) : Bool := !factLt b a

/-- `factLe` as a decidable relation, for use with the sort. -/
def factLeP (a b : Str) : Prop := factLe a b = true

instance : DecidableRel factLeP :=
  fun a b => inferInstanceAs (Decidable (factLe a b = true))

/-- The per-unit fact normalization performed by `flushToFile`: sort the
collected names with the comparator `factLt`. `std::sort` guarantees exactly
that the output is a permutation of the input with no inversion under the
comparator; an insertion sort under `factLe` realises such an output. -/
def sortFacts (names : List Str) : List Str := List.insertionSort factLeP names

/-- One output line of `flushToFile` (main.cpp lines 84-88), without the
terminating newline byte: the display name, then for each fact a space byte
followed by the fact. -/
def renderLine (name : Str) (facts : List Str) : Str :=
  name ++ (facts.map (fun f => 32 :: f)).flatten

/-- `std::string::npos` on a platform with 64-bit `size_t`. -/
def npos : Nat := 2 ^ 64 - 1

/-- The index of the last slash byte (47) of the string, if any: the value of
`filename.rfind(47)` before its narrowing conversion to `int`. -/
def lastSlashIdx : Str → Option Nat
  | [] => none
  | c :: rest =>
    match lastSlashIdx rest with
    | some r => some (r + 1)
    | none => if c = 47 then some 0 else none

/-- Narrowing conversion of a `size_t` value to a 32-bit two's-complement
`int`, performed by `int last_slash_pos = filename.rfind(47)` in the
`MyAstConsumer` constructor (main.cpp line 62). -/
def toInt32 (n : Nat) : Int :=
  if n % 2 ^ 32 < 2 ^ 31 then ((n % 2 ^ 32 : Nat) : Int)
  else ((n % 2 ^ 32 : Nat) : Int) - 2 ^ 32

/-- Conversion of an `int` value back to 64-bit `size_t` (sign extension), as
happens in the comparison `last_slash_pos != std::string::npos` and in the
argument of `substr` (main.cpp lines 63-64). -/
def intToSizeT (i : Int) : Nat := (i % (2 ^ 64 : Int)).toNat

/-- The display name computed by the `MyAstConsumer` constructor
(main.cpp lines 61-66): `rfind` the last slash, store the result in an `int`,
and if that `int` (converted back to `size_t`) differs from `npos`, replace the
filename by its substring starting one past that position. -/
def displayName (filename : Str) : Str :=
  let pos : Nat := (lastSlashIdx filename).getD npos
  let lastSlashPos : Int := toInt32 pos
  if intToSizeT lastSlashPos ≠ npos then
    filename.drop (intToSizeT (lastSlashPos + 1))
  else filename

/-- The record line a worker emits for one translation unit `u`:
`HandleTranslationUnit` collects the names `analyze u` and `flushToFile`
writes the display name followed by the sorted names. The analysis capability
`analyze` is a parameter (it is the external clang AST traversal). -/
def workerLine (analyze : Str → List Str) (u : Str) : Str :=
  renderLine (displayName u) (sortFacts (analyze u))

/-- The sequence of lines a worker writes to its private sink while running
the tool over its shard, in shard order (one line per unit). -/
def workerLines (analyze : Str → List Str) (sh : List Str) : List Str :=
  sh.map (workerLine analyze)

/-- Shard `i` of the input list, as built in `main` (main.cpp lines 147-158):
`chunk_size = N / K`, `begin_index = i * chunk_size`,
`end_index = (i == K-1) ? N : (i+1) * chunk_size`, and the shard is
`sources[begin_index, end_index)`. Arithmetic is in `Nat`; it matches the
`int` arithmetic of the source whenever `N < 2^31`. -/
def shard (units : List Str) (K i : Nat) : List Str :=
  let c := units.length / K
  let b := i * c
  let e := if i = K - 1 then units.length else (i + 1) * c
  (units.take e).drop b

/-- All `K` shards in index order, as produced by the loop in `main`. -/
def shards (units : List Str) (K : Nat) : List (List Str) :=
  (List.range K).map (shard units K)

/-- Strict byte-wise lexicographic order on byte strings. -/
def lexLt : Str → Str → Bool
  | [], [] => false
  | [], _ :: _ => true
  | _ :: _, [] => false
  | a :: as, b :: bs => if a = b then lexLt as bs else decide (a < b)

/-- `a` may precede `b` in a byte-wise sorted line sequence. -/
def lexLe (a b : Str) : Bool := !lexLt b a

/-- `lexLe` as a decidable relation, for use with the sort. -/
def lexLeP (a b : Str) : Prop := lexLe a b = true

instance : DecidableRel lexLeP :=
  fun a b => inferInstanceAs (Decidable (lexLe a b = true))

/-- Modelled from the spec: the merge step of `main` (lines 169-170) shells
out to the external utility `sort` via `system("cat <files> | sort >
output.txt")`; that utility is not part of this repository, and the spec fixes
its collation to pure byte-wise lexicographic order on lines. The combine step
is therefore modelled as a byte-lexicographic sort of the concatenated lines. -/
def sortLines (ls : List Str) : List Str := List.insertionSort lexLeP ls

/-- Result of one full run of `main` after successful option parsing:
the sorted report in `output.txt`, the process exit code, and the per-worker
tool statuses printed by `run_tool` (main.cpp line 129). -/
structure RunResult where
  report : List Str
  exitCode : Nat
  logs : List Nat
  deriving DecidableEq

/-- The pipeline of `main` (main.cpp lines 143-171) after option parsing
succeeded: build the `K` shards, run one tool per shard (each worker writes
`workerLines` to its private file and `run_tool` prints the status
`toolStatus i` that `tool.run` returned for shard `i`), join all threads, and
merge by sorting the concatenation of the per-worker files (in shard index
order, the order of `filenames_in_line`). `main` then executes `return 0`
(line 171) regardless of the printed statuses. -/
def pipeline (analyze : Str → List Str) (toolStatus : Nat → Nat)
    (units : List Str) (K : Nat) : RunResult :=
  { report := sortLines
      (((List.range K).map (fun i => workerLines analyze (shard units K i))).flatten)
    exitCode := 0
    logs := (List.range K).map toolStatus }

/-- The process exit code of `main`: 1 when `CommonOptionsParser::create`
fails (main.cpp lines 136-140), otherwise the pipeline's exit code. -/
def mainExit (parseOk : Bool) (analyze : Str → List Str) (toolStatus : Nat → Nat)
    (units : List Str) (K : Nat) : Nat :=
  if parseOk then (pipeline analyze toolStatus units K).exitCode else 1

/-! ### Scheduled execution model

To reason about independence from thread interleaving, worker execution is
modelled as a small-step system: each worker owns the list of units remaining
in its shard and a private sink, and a schedule is the sequence of worker
indices chosen by the OS scheduler; at each step the scheduled worker
processes its next unit, appending one line to its own sink. This reflects
the source structure: sinks are per-thread `std::ofstream`s to distinct
files, never shared between workers (main.cpp lines 154-163). -/

/-- The mutable state of the parallel phase: per-worker remaining units and
per-worker private sink contents. -/
structure ExecState where
  remaining : List (List Str)
  sinks : List (List Str)
  deriving DecidableEq

/-- One scheduling step: worker `w` processes the next unit of its shard,
appending that unit's line to its private sink; a worker with an exhausted
shard (or an index with no worker) makes no progress. -/
def step (analyze : Str → List Str) (s : ExecState) (w : Nat) : ExecState :=
  match s.remaining.getD w [] with
  | [] => s
  | u :: rest =>
    { remaining := s.remaining.set w rest
      sinks := s.sinks.set w (s.sinks.getD w [] ++ [workerLine analyze u]) }

/-- Run a whole schedule from a state. -/
def exec (analyze : Str → List Str) (sched : List Nat) (s : ExecState) : ExecState :=
  sched.foldl (step analyze) s

/-- The state at thread spawn time: every worker holds its full shard and an
empty (freshly created) sink file. -/
def initState (units : List Str) (K : Nat) : ExecState :=
  { remaining := (List.range K).map (shard units K)
    sinks := (List.range K).map (fun _ => []) }

/-- A schedule under which every worker runs to completion: each worker index
`w < K` is scheduled exactly as many times as its shard has units. This is
what the join barrier (main.cpp lines 166-168) guarantees before the merge. -/
def CompleteSched (units : List Str) (K : Nat) (sched : List Nat) : Prop :=
  ∀ w, w < K → sched.count w = (shard units K w).length

/-- The report obtained by merging the sinks of a state in shard index order,
as the `cat`-then-`sort` step does. -/
def reportOf (s : ExecState) : List Str := sortLines s.sinks.flatten

/-! ### Main-thread event trace

The temporal structure of `main`: the spawn loop (lines 151-165), then the
join loop (lines 166-168), then the merge (lines 169-170). -/

/-- Events executed by the main thread, in program order. -/
inductive Ev where
  | spawn (i : Nat)
  | join (i : Nat)
  | merge
  deriving DecidableEq

/-- The sequence of main-thread events for a run with `K` workers: spawn all
workers in index order, join all workers in index order, then merge. -/
def mainTrace (K : Nat) : List Ev :=
  ((List.range K).map Ev.spawn) ++ ((List.range K).map Ev.join) ++ [Ev.merge]

/-! ### Order-theoretic lemmas about the two comparators -/

theorem lexLt_irrefl : ∀ a : Str, lexLt a a = false
  | [] => rfl
  | _ :: as => by simp [lexLt, lexLt_irrefl as]

theorem lexLt_trans (a b c : Str) :
    lexLt a b = true → lexLt b c = true → lexLt a c = true := by
  induction a generalizing b c with
  | nil =>
    intro h1 h2
    cases b with
    | nil => simp [lexLt] at h1
    | cons y ys =>
      cases c with
      | nil => simp [lexLt] at h2
      | cons z zs => simp [lexLt]
  | cons x xs ih =>
    intro h1 h2
    cases b with
    | nil => simp [lexLt] at h1
    | cons y ys =>
      cases c with
      | nil => simp [lexLt] at h2
      | cons z zs =>
        simp only [lexLt] at h1 h2 ⊢
        by_cases hxy : x = y
        · subst hxy
          by_cases hyz : x = z
          · subst hyz
            simp only [if_pos rfl] at h1 h2 ⊢
            exact ih ys zs h1 h2
          · simp only [if_neg hyz] at h2 ⊢
            simpa using h2
        · by_cases hyz : y = z
          · subst hyz
            simp only [if_neg hxy] at h1 ⊢
            simpa using h1
          · simp only [if_neg hxy, if_neg hyz] at h1 h2
            have hx : x < y := by simpa using h1
            have hy : y < z := by simpa using h2
            have hxz : x ≠ z := Nat.ne_of_lt (Nat.lt_trans hx hy)
            simp [if_neg hxz, Nat.lt_trans hx hy]

theorem lexLt_total3 (a b : Str) :
    lexLt a b = true ∨ a = b ∨ lexLt b a = true := by
  induction a generalizing b with
  | nil =>
    cases b with
    | nil => exact Or.inr (Or.inl rfl)
    | cons y ys => exact Or.inl (by simp [lexLt])
  | cons x xs ih =>
    cases b with
    | nil => exact Or.inr (Or.inr (by simp [lexLt]))
    | cons y ys =>
      by_cases hxy : x = y
      · subst hxy
        rcases ih ys with h | h | h
        · exact Or.inl (by simp [lexLt, h])
        · exact Or.inr (Or.inl (by rw [h]))
        · exact Or.inr (Or.inr (by simp [lexLt, h]))
      · have hne : ¬ y = x := fun e => hxy e.symm
        rcases Nat.lt_or_ge x y with h | h
        · exact Or.inl (by simp [lexLt, hxy, h])
        · have hyx : y < x := Nat.lt_of_le_of_ne h hne
          exact Or.inr (Or.inr (by simp [lexLt, hne, hyx]))

theorem lexLe_trans (a b c : Str) :
    lexLe a b = true → lexLe b c = true → lexLe a c = true := by
  intro h1 h2
  simp only [lexLe, Bool.not_eq_true'] at h1 h2 ⊢
  by_contra hc
  have hca : lexLt c a = true := by
    cases h : lexLt c a with
    | false => exact absurd h hc
    | true => rfl
  rcases lexLt_total3 a b with h | h | h
  · have := lexLt_trans c a b hca h
    exact absurd this (by simp [h2])
  · subst h
    exact absurd hca (by simp [h2])
  · exact absurd h (by simp [h1])

theorem lexLe_total (a b : Str) : lexLe a b || lexLe b a := by
  simp only [lexLe]
  by_contra hc
  simp only [Bool.or_eq_true, Bool.not_eq_true', Bool.not_eq_false] at hc
  push_neg at hc
  rcases hc with ⟨h1, h2⟩
  have h1t : lexLt b a = true := by simpa using h1
  have h2t : lexLt a b = true := by simpa using h2
  have := lexLt_trans a b a h2t h1t
  simp [lexLt_irrefl] at this

/-- The `flushToFile` comparator is byte-wise lexicographic comparison of the
`tolower`-folded strings. -/
theorem factLt_eq_lexLt_fold (a b : Str) :
    factLt a b = lexLt (a.map toLowerByte) (b.map toLowerByte) := by
  induction a generalizing b with
  | nil => cases b <;> simp [factLt, lexLt]
  | cons x xs ih =>
    cases b with
    | nil => simp [factLt, lexLt]
    | cons y ys =>
      simp only [factLt, List.map_cons, lexLt]
      by_cases h : toLowerByte x = toLowerByte y
      · simp [h, ih]
      · simp [h]

theorem factLe_trans (a b c : Str) :
    factLe a b = true → factLe b c = true → factLe a c = true := by
  simp only [factLe, Bool.not_eq_true', factLt_eq_lexLt_fold]
  intro h1 h2
  have := lexLe_trans (a.map toLowerByte) (b.map toLowerByte) (c.map toLowerByte)
  simp only [lexLe, Bool.not_eq_true'] at this
  exact this h1 h2

theorem factLe_total (a b : Str) : factLe a b || factLe b a := by
  simp only [factLe, factLt_eq_lexLt_fold]
  have := lexLe_total (a.map toLowerByte) (b.map toLowerByte)
  simpa [lexLe] using this

/-! ### Sorting lemmas -/

instance : IsTrans Str factLeP :=
  ⟨fun a b c hab hbc => factLe_trans a b c hab hbc⟩

instance : IsTotal Str factLeP :=
  ⟨fun a b => by
    have h := factLe_total a b
    rcases (Bool.or_eq_true _ _).mp h with h1 | h1
    · exact Or.inl h1
    · exact Or.inr h1⟩

instance : IsTrans Str lexLeP :=
  ⟨fun a b c hab hbc => lexLe_trans a b c hab hbc⟩

instance : IsTotal Str lexLeP :=
  ⟨fun a b => by
    have h := lexLe_total a b
    rcases (Bool.or_eq_true _ _).mp h with h1 | h1
    · exact Or.inl h1
    · exact Or.inr h1⟩

theorem sortFacts_perm (l : List Str) : (sortFacts l).Perm l :=
  List.perm_insertionSort factLeP l

/-- The output of the per-unit fact sort has no inversion under the
`flushToFile` comparator: exactly the postcondition of `std::sort`. -/
theorem sortFacts_pairwise (l : List Str) :
    (sortFacts l).Pairwise (fun a b => factLt b a = false) := by
  have h := List.sorted_insertionSort factLeP l
  exact List.Pairwise.imp
    (fun hab => by simpa [factLeP, factLe, Bool.not_eq_true'] using hab) h

theorem sortLines_perm (l : List Str) : (sortLines l).Perm l :=
  List.perm_insertionSort lexLeP l

/-- The merged report has no inversion under strict byte-wise lexicographic
order on lines. -/
theorem sortLines_pairwise (l : List Str) :
    (sortLines l).Pairwise (fun a b => lexLt b a = false) := by
  have h := List.sorted_insertionSort lexLeP l
  exact List.Pairwise.imp
    (fun hab => by simpa [lexLeP, lexLe, Bool.not_eq_true'] using hab) h

/-! ### Partition lemmas -/

theorem take_add_eq {α : Type _} (l : List α) (m n : Nat) :
    l.take (m + n) = l.take m ++ (l.drop m).take n := by
  have h := List.take_append_drop m (l.take (m + n))
  rw [List.take_take, Nat.min_eq_left (Nat.le_add_right m n), ← List.take_drop] at h
  exact h.symm

theorem mul_chunk_le (N K j : Nat) (hj : j ≤ K) : j * (N / K) ≤ N :=
  calc j * (N / K) ≤ K * (N / K) := Nat.mul_le_mul_right _ hj
  _ = N / K * K := Nat.mul_comm K (N / K)
  _ ≤ N := Nat.div_mul_le_self N K

/-- Every shard other than the last is a `chunk_size`-long block starting at
`i * chunk_size`. -/
theorem shard_of_lt (units : List Str) (K i : Nat) (h : i < K - 1) :
    shard units K i
      = (units.drop (i * (units.length / K))).take (units.length / K) := by
  have hne : i ≠ K - 1 := Nat.ne_of_lt h
  simp only [shard, if_neg hne]
  rw [List.take_drop, Nat.succ_mul]

/-- The last shard runs from `(K-1) * chunk_size` to the end of the list. -/
theorem shard_last (units : List Str) (K : Nat) :
    shard units K (K - 1) = units.drop ((K - 1) * (units.length / K)) := by
  simp [shard]

theorem shards_length (units : List Str) (K : Nat) : (shards units K).length = K := by
  simp [shards]

/-- The first `j` shards (for `j` up to `K-1`) concatenate to the first
`j * chunk_size` units. -/
theorem shards_prefix_flatten (units : List Str) (K : Nat) :
    ∀ j, j ≤ K - 1 →
      ((List.range j).map (shard units K)).flatten
        = units.take (j * (units.length / K)) := by
  intro j
  induction j with
  | zero => intro _; simp
  | succ j ih =>
    intro h
    have hj : j < K - 1 := Nat.lt_of_lt_of_le (Nat.lt_succ_self j) h
    rw [List.range_succ, List.map_append, List.flatten_append,
        ih (Nat.le_of_lt hj)]
    simp only [List.map_cons, List.map_nil, List.flatten_cons, List.flatten_nil,
      List.append_nil]
    rw [shard_of_lt units K j hj, ← take_add_eq, ← Nat.succ_mul]

/-- Partition completeness: the `K` shards concatenate back to the exact
input list. -/
theorem shards_flatten (units : List Str) (K : Nat) (hK : 1 ≤ K) :
    (shards units K).flatten = units := by
  obtain ⟨L, rfl⟩ : ∃ L, K = L + 1 := ⟨K - 1, (Nat.succ_pred_eq_of_pos hK).symm⟩
  rw [shards, List.range_succ, List.map_append, List.flatten_append,
      shards_prefix_flatten units (L + 1) L (by simp)]
  simp only [List.map_cons, List.map_nil, List.flatten_cons, List.flatten_nil,
    List.append_nil]
  have hlast := shard_last units (L + 1)
  simp only [Nat.add_sub_cancel] at hlast
  rw [hlast, List.take_append_drop]

/-- Shards 0..K-2 each hold exactly `chunk_size = N / K` units. -/
theorem shard_length_of_lt (units : List Str) (K i : Nat) (h : i < K - 1) :
    (shard units K i).length = units.length / K := by
  rw [shard_of_lt units K i h, List.length_take, List.length_drop]
  have h1 : (i + 1) * (units.length / K) ≤ units.length :=
    mul_chunk_le units.length K (i + 1) (by omega)
  have h2 : (i + 1) * (units.length / K)
      = i * (units.length / K) + units.length / K := Nat.succ_mul i _
  omega

/-- The final shard absorbs the remainder. -/
theorem shard_last_length (units : List Str) (K : Nat) :
    (shard units K (K - 1)).length
      = units.length - (K - 1) * (units.length / K) := by
  rw [shard_last units K, List.length_drop]

/-! ### Schedule-independence of the parallel phase -/

/-- Increment the progress counter of worker `w`. -/
def bump (counts : Nat → Nat) (w : Nat) : Nat → Nat :=
  fun v => if v = w then counts v + 1 else counts v

/-- The execution invariant: when worker `v` has been scheduled `counts v`
times, it still has to process exactly the units of its shard beyond position
`counts v`, and its private sink holds exactly the lines of the first
`counts v` units of its shard. -/
def InvState (analyze : Str → List Str) (units : List Str) (K : Nat)
    (counts : Nat → Nat) (s : ExecState) : Prop :=
  s.remaining
      = (List.range K).map (fun w => (shard units K w).drop (counts w))
    ∧ s.sinks
      = (List.range K).map
          (fun w => (workerLines analyze (shard units K w)).take (counts w))

theorem range_map_set {α : Type _} (K w : Nat) (f : Nat → α) (x : α)
    (hw : w < K) :
    ((List.range K).map f).set w x
      = (List.range K).map (fun v => if v = w then x else f v) := by
  apply List.ext_getElem?
  intro n
  rw [List.getElem?_set]
  by_cases hn : n < K
  · rw [List.getElem?_map, List.getElem?_map, List.getElem?_range hn]
    by_cases hwn : w = n
    · subst hwn
      simp [List.length_map, List.length_range, hw]
    · have hnw : ¬ n = w := fun e => hwn e.symm
      simp [hwn, hnw]
  · have hlen : K ≤ n := Nat.le_of_not_lt hn
    have h1 : (List.range K)[n]? = none :=
      List.getElem?_eq_none (by simpa [List.length_range] using hlen)
    by_cases hwn : w = n
    · subst hwn
      exact absurd hw hn
    · simp [hwn, List.getElem?_map, h1]

theorem getD_range_map {α : Type _} (K w : Nat) (f : Nat → α) (d : α)
    (hw : w < K) : ((List.range K).map f).getD w d = f w := by
  simp [List.getD_eq_getElem?_getD, List.getElem?_map, List.getElem?_range hw]

/-- One scheduling step preserves the execution invariant, bumping the
scheduled worker's counter. -/
theorem step_inv (analyze : Str → List Str) (units : List Str) (K : Nat)
    (counts : Nat → Nat) (s : ExecState) (w : Nat)
    (h : InvState analyze units K counts s) :
    InvState analyze units K (bump counts w) (step analyze s w) := by
  obtain ⟨hr, hs⟩ := h
  by_cases hw : w < K
  · have hget : s.remaining.getD w [] = (shard units K w).drop (counts w) := by
      rw [hr]; exact getD_range_map K w _ [] hw
    rcases hdrop : (shard units K w).drop (counts w) with _ | ⟨u, rest⟩
    · -- worker w has exhausted its shard: the step is a no-op
      have hstep : step analyze s w = s := by
        unfold step
        rw [hget, hdrop]
      have hlen : (shard units K w).length ≤ counts w :=
        List.drop_eq_nil_iff.mp hdrop
      rw [hstep]
      constructor
      · rw [hr]
        apply List.map_congr_left
        intro v hv
        by_cases hvw : v = w
        · subst hvw
          rw [hdrop, bump, if_pos rfl, List.drop_eq_nil_of_le (by omega)]
        · rw [bump, if_neg hvw]
      · rw [hs]
        apply List.map_congr_left
        intro v hv
        by_cases hvw : v = w
        · subst hvw
          have hwl : (workerLines analyze (shard units K v)).length ≤ counts v := by
            simpa [workerLines] using hlen
          rw [List.take_of_length_le hwl, bump, if_pos rfl,
            List.take_of_length_le (by omega)]
        · rw [bump, if_neg hvw]
    · -- worker w processes unit u
      have hstep : step analyze s w
          = { remaining := s.remaining.set w rest
              sinks := s.sinks.set w
                (s.sinks.getD w [] ++ [workerLine analyze u]) } := by
        unfold step
        rw [hget, hdrop]
      have hu : (shard units K w)[counts w]? = some u := by
        have h0 := List.getElem?_drop (shard units K w) (counts w) 0
        rw [hdrop] at h0
        simpa using h0.symm
      have hsget : s.sinks.getD w []
          = (workerLines analyze (shard units K w)).take (counts w) := by
        rw [hs]; exact getD_range_map K w _ [] hw
      rw [hstep]
      constructor
      · show s.remaining.set w rest = _
        rw [hr, range_map_set K w _ rest hw]
        apply List.map_congr_left
        intro v hv
        by_cases hvw : v = w
        · subst hvw
          rw [if_pos rfl, bump, if_pos rfl, ← List.drop_drop, hdrop]
          rfl
        · rw [if_neg hvw, bump, if_neg hvw]
      · show s.sinks.set w _ = _
        rw [hsget, hs, range_map_set K w _ _ hw]
        apply List.map_congr_left
        intro v hv
        by_cases hvw : v = w
        · subst hvw
          rw [if_pos rfl, bump, if_pos rfl, List.take_succ]
          have hlu : (workerLines analyze (shard units K v))[counts v]?
              = some (workerLine analyze u) := by
            simp [workerLines, List.getElem?_map, hu]
          rw [hlu]
          rfl
        · rw [if_neg hvw, bump, if_neg hvw]
  · -- an index that names no worker: the step is a no-op
    have hget : s.remaining.getD w [] = [] := by
      rw [hr]
      apply List.getD_eq_default
      simpa [List.length_map, List.length_range] using Nat.le_of_not_lt hw
    have hstep : step analyze s w = s := by
      unfold step
      rw [hget]
    rw [hstep]
    constructor
    · rw [hr]
      apply List.map_congr_left
      intro v hv
      have hv' : v < K := List.mem_range.mp hv
      rw [bump, if_neg (by omega)]
    · rw [hs]
      apply List.map_congr_left
      intro v hv
      have hv' : v < K := List.mem_range.mp hv
      rw [bump, if_neg (by omega)]

/-- Running a whole schedule adds each worker's occurrence count to its
progress counter. -/
theorem exec_inv (analyze : Str → List Str) (units : List Str) (K : Nat) :
    ∀ (sched : List Nat) (counts : Nat → Nat) (s : ExecState),
      InvState analyze units K counts s →
      InvState analyze units K (fun v => counts v + sched.count v)
        (exec analyze sched s)
  | [], counts, s, h => by
    simpa [exec] using h
  | w :: sched, counts, s, h => by
    have h1 := step_inv analyze units K counts s w h
    have h2 := exec_inv analyze units K sched (bump counts w)
      (step analyze s w) h1
    have hc : (fun v => bump counts w v + sched.count v)
        = fun v => counts v + (w :: sched).count v := by
      funext v
      rw [bump, List.count_cons]
      by_cases hv : v = w
      · subst hv; simp; omega
      · have : ¬ w = v := fun e => hv e.symm
        simp [hv, this]
    show InvState analyze units K _ (exec analyze sched (step analyze s w))
    rw [← hc]
    exact h2

/-- After any complete schedule, each worker's sink holds exactly the lines
of its shard, independently of the schedule. -/
theorem exec_complete_sinks (analyze : Str → List Str) (units : List Str)
    (K : Nat) (sched : List Nat) (h : CompleteSched units K sched) :
    (exec analyze sched (initState units K)).sinks
      = (List.range K).map (fun w => workerLines analyze (shard units K w)) := by
  have h0 : InvState analyze units K (fun _ => 0) (initState units K) := by
    constructor <;> simp [initState]
  obtain ⟨-, hsink⟩ :=
    exec_inv analyze units K sched (fun _ => 0) (initState units K) h0
  rw [hsink]
  apply List.map_congr_left
  intro w hwmem
  have hw : w < K := List.mem_range.mp hwmem
  show (workerLines analyze (shard units K w)).take (0 + sched.count w) = _
  rw [Nat.zero_add, h w hw]
  apply List.take_of_length_le
  simp [workerLines]

/-- The merged report after any complete schedule is the pipeline's report. -/
theorem exec_report (analyze : Str → List Str) (toolStatus : Nat → Nat)
    (units : List Str) (K : Nat) (sched : List Nat)
    (h : CompleteSched units K sched) :
    reportOf (exec analyze sched (initState units K))
      = (pipeline analyze toolStatus units K).report := by
  rw [reportOf, exec_complete_sinks analyze units K sched h]
  rfl

/-! ### Display-name lemmas -/

theorem lastSlashIdx_lt (s : Str) (p : Nat) (h : lastSlashIdx s = some p) :
    p < s.length := by
  induction s generalizing p with
  | nil => simp [lastSlashIdx] at h
  | cons c rest ih =>
    rw [lastSlashIdx] at h
    cases hr : lastSlashIdx rest with
    | some r =>
      rw [hr] at h
      injection h with h
      have := ih r hr
      simp only [List.length_cons]
      omega
    | none =>
      rw [hr] at h
      by_cases hc : c = 47
      · rw [if_pos hc] at h
        injection h with h
        simp only [List.length_cons]
        omega
      · rw [if_neg hc] at h
        simp at h

theorem lastSlashIdx_none (s : Str) (h : lastSlashIdx s = none) : ¬ 47 ∈ s := by
  induction s with
  | nil => simp
  | cons c rest ih =>
    rw [lastSlashIdx] at h
    cases hr : lastSlashIdx rest with
    | some r => rw [hr] at h; simp at h
    | none =>
      rw [hr] at h
      by_cases hc : c = 47
      · rw [if_pos hc] at h; simp at h
      · intro hmem
        rcases List.mem_cons.mp hmem with he | hm
        · exact hc he.symm
        · exact ih hr hm

/-- `lastSlashIdx` finds a slash, and it is the last one. -/
theorem lastSlashIdx_some (s : Str) (p : Nat) (h : lastSlashIdx s = some p) :
    s[p]? = some 47 ∧ ∀ q, p < q → s[q]? ≠ some 47 := by
  induction s generalizing p with
  | nil => simp [lastSlashIdx] at h
  | cons c rest ih =>
    rw [lastSlashIdx] at h
    cases hr : lastSlashIdx rest with
    | some r =>
      rw [hr] at h
      injection h with h
      subst h
      obtain ⟨h1, h2⟩ := ih r hr
      refine ⟨by simpa using h1, ?_⟩
      intro q hq
      obtain ⟨t, rfl⟩ : ∃ t, q = t + 1 := ⟨q - 1, by omega⟩
      rw [List.getElem?_cons_succ]
      exact h2 t (by omega)
    | none =>
      rw [hr] at h
      by_cases hc : c = 47
      · rw [if_pos hc] at h
        injection h with h
        subst h
        subst hc
        refine ⟨by simp, ?_⟩
        intro q hq
        obtain ⟨t, rfl⟩ : ∃ t, q = t + 1 := ⟨q - 1, by omega⟩
        rw [List.getElem?_cons_succ]
        intro hcontra
        exact lastSlashIdx_none rest hr (List.getElem?_mem hcontra)
      · rw [if_neg hc] at h
        simp at h

theorem toInt32_of_small (p : Nat) (h : p < 2 ^ 31) : toInt32 p = (p : Int) := by
  have hm : p % 2 ^ 32 = p := Nat.mod_eq_of_lt (by omega)
  rw [toInt32]
  simp only [hm]
  rw [if_pos h]

theorem intToSizeT_of_small (p : Nat) (h : p < 2 ^ 64) :
    intToSizeT (p : Int) = p := by
  rw [intToSizeT, Int.emod_eq_of_lt (Int.natCast_nonneg p) (by exact_mod_cast h)]
  simp

/-- With no slash present, `rfind` returns `npos`, the narrowed `int` is `-1`,
the comparison with `npos` fails after sign extension, and the filename is
kept whole. -/
theorem displayName_of_none (filename : Str)
    (h : lastSlashIdx filename = none) : displayName filename = filename := by
  unfold displayName
  rw [h]
  simp only [Option.getD_none]
  rw [if_neg (by decide : ¬ intToSizeT (toInt32 npos) ≠ npos)]

/-- With the last slash at position `p` (and the filename short enough for the
`int` narrowing to be value-preserving), the display name is the suffix after
position `p`. -/
theorem displayName_of_some (filename : Str) (p : Nat)
    (h : lastSlashIdx filename = some p) (hlen : filename.length < 2 ^ 31) :
    displayName filename = filename.drop (p + 1) := by
  have hp : p < filename.length := lastSlashIdx_lt filename p h
  have hp31 : p < 2 ^ 31 := by omega
  unfold displayName
  rw [h]
  simp only [Option.getD_some]
  rw [toInt32_of_small p hp31]
  have h1 : intToSizeT (p : Int) = p := intToSizeT_of_small p (by omega)
  have h2 : ((p : Int) + 1) = ((p + 1 : Nat) : Int) := by push_cast; ring
  have h3 : intToSizeT ((p : Int) + 1) = p + 1 := by
    rw [h2]; exact intToSizeT_of_small (p + 1) (by omega)
  have hne : p ≠ npos := by rw [npos]; omega
  rw [h1, h3, if_pos hne]

/-! ### Main-trace lemmas -/

/-- Full characterization of the main-thread trace: spawns at indices
`0..K-1`, joins at `K..2K-1`, the merge at `2K`, nothing after. -/
theorem mainTrace_getElem (K p : Nat) :
    (mainTrace K)[p]?
      = if p < K then some (Ev.spawn p)
        else if p < 2 * K then some (Ev.join (p - K))
        else if p = 2 * K then some Ev.merge
        else none := by
  rw [mainTrace, List.append_assoc]
  by_cases h1 : p < K
  · rw [List.getElem?_append_left (by simpa using h1),
      List.getElem?_map, List.getElem?_range h1]
    simp [h1]
  · rw [List.getElem?_append_right (by simpa using Nat.le_of_not_lt h1)]
    simp only [List.length_map, List.length_range]
    by_cases h2 : p < 2 * K
    · have hpk : p - K < K := by omega
      rw [List.getElem?_append_left (by simpa using hpk),
        List.getElem?_map, List.getElem?_range hpk]
      simp [h1, h2]
    · rw [List.getElem?_append_right (by simpa using (by omega : K ≤ p - K))]
      simp only [List.length_map, List.length_range]
      by_cases h3 : p = 2 * K
      · have : p - K - K = 0 := by omega
        rw [this]
        simp only [List.getElem?_cons_zero, if_neg h1, if_neg h2, if_pos h3]
      · have : 1 ≤ p - K - K := by omega
        rw [List.getElem?_eq_none (by simpa using this)]
        simp [h1, h2, h3]

/-- The concatenation of the per-worker line sequences, in shard index order,
is the line sequence of the whole input list. -/
theorem pipeline_flatten (analyze : Str → List Str) (units : List Str)
    (K : Nat) (hK : 1 ≤ K) :
    ((List.range K).map (fun i => workerLines analyze (shard units K i))).flatten
      = units.map (workerLine analyze) := by
  have h : (List.range K).map (fun i => workerLines analyze (shard units K i))
      = (shards units K).map (List.map (workerLine analyze)) := by
    rw [shards, List.map_map]
    rfl
  rw [h, ← List.map_flatten, shards_flatten units K hK]

/-! ### The claims -/

/-- C1: the lines of the final report are ordered by byte-wise lexicographic
comparison of each record's full rendered line (display name followed by the
normalized facts), and the global order is established exactly once at
aggregation time: the report is one global sort of the concatenated,
otherwise unordered, per-worker record sets (of which it is a permutation,
with no inversion under byte-wise lexicographic order). -/
theorem claim1_report_sorted_bytewise (analyze : Str → List Str)
    (toolStatus : Nat → Nat) (units : List Str) (K : Nat) :
    (pipeline analyze toolStatus units K).report.Pairwise
        (fun a b => lexLt b a = false)
      ∧ (pipeline analyze toolStatus units K).report.Perm
          (((List.range K).map
            (fun i => workerLines analyze (shard units K i))).flatten)
      ∧ (pipeline analyze toolStatus units K).report
          = sortLines (((List.range K).map
              (fun i => workerLines analyze (shard units K i))).flatten) :=
  ⟨sortLines_pairwise _, sortLines_perm _, rfl⟩

/-- C2 counterexample: a run in which every worker's tool reports failure
(status 1, a fatal shard-wide failure) still makes `main` return exit code 0,
refuting the claim that the process exits with a non-zero status whenever some
worker hits a fatal failure. The statuses are only printed, never folded into
the exit code (main.cpp lines 127-129, 171). -/
theorem claim2_cex :
    (pipeline (fun _ => []) (fun _ => 1) [[97]] 4).logs = [1, 1, 1, 1]
      ∧ mainExit true (fun _ => []) (fun _ => 1) [[97]] 4 = 0 :=
  ⟨rfl, rfl⟩

/-- C2 amended: whenever option parsing succeeds, the process exits with
status 0 regardless of any worker's tool status; a failure status is surfaced
only in the per-worker log line. The exit status is non-zero (1) only when
option parsing itself fails, before any worker is spawned. -/
theorem claim2_exit_ignores_worker_failures (parseOk : Bool)
    (analyze : Str → List Str) (toolStatus : Nat → Nat) (units : List Str)
    (K : Nat) :
    mainExit parseOk analyze toolStatus units K = (if parseOk then 0 else 1)
      ∧ (pipeline analyze toolStatus units K).logs
          = (List.range K).map toolStatus := by
  constructor
  · cases parseOk <;> rfl
  · rfl

/-- C3: for a fixed input list, fixed per-unit analysis results and fixed
worker count, any two complete runs of the parallel phase produce
byte-identical reports, whatever order the scheduler interleaves the workers
in; both equal the report of the abstract pipeline. -/
theorem claim3_deterministic (analyze : Str → List Str)
    (toolStatus : Nat → Nat) (units : List Str) (K : Nat)
    (sched1 sched2 : List Nat) (h1 : CompleteSched units K sched1)
    (h2 : CompleteSched units K sched2) :
    reportOf (exec analyze sched1 (initState units K))
        = reportOf (exec analyze sched2 (initState units K))
      ∧ reportOf (exec analyze sched1 (initState units K))
        = (pipeline analyze toolStatus units K).report := by
  have e1 := exec_report analyze toolStatus units K sched1 h1
  have e2 := exec_report analyze toolStatus units K sched2 h2
  exact ⟨e1.trans e2.symm, e1⟩

/-- Witness for C3 at a concrete input: two workers, two units, the two
schedules running the workers in opposite orders. -/
theorem claim3_witness :
    CompleteSched [[97], [98]] 2 [0, 1]
      ∧ CompleteSched [[97], [98]] 2 [1, 0]
      ∧ reportOf (exec (fun u => [u]) [0, 1] (initState [[97], [98]] 2))
          = reportOf (exec (fun u => [u]) [1, 0] (initState [[97], [98]] 2)) := by
  have hc1 : CompleteSched [[97], [98]] 2 [0, 1] := by
    unfold CompleteSched
    decide
  have hc2 : CompleteSched [[97], [98]] 2 [1, 0] := by
    unfold CompleteSched
    decide
  exact ⟨hc1, hc2,
    (claim3_deterministic (fun u => [u]) (fun _ => 0) [[97], [98]] 2
      [0, 1] [1, 0] hc1 hc2).1⟩

/-- C4: the worker emits each unit's facts sorted by the case-insensitive
comparator of `flushToFile` (no inversion remains under the comparator, on a
permutation of the input), the normalization is applied per unit (each unit's
line is built from that unit's facts only), and the facts
`["Zeta", "apple", "Be"]` come out as `["apple", "Be", "Zeta"]` (the three
facts written as their ASCII byte strings). -/
theorem claim4_fact_normalization :
    sortFacts [[90, 101, 116, 97], [97, 112, 112, 108, 101], [66, 101]]
        = [[97, 112, 112, 108, 101], [66, 101], [90, 101, 116, 97]]
      ∧ (∀ l : List Str, (sortFacts l).Pairwise (fun a b => factLt b a = false)
          ∧ (sortFacts l).Perm l)
      ∧ (∀ (analyze : Str → List Str) (sh : List Str),
          workerLines analyze sh
            = sh.map (fun u => renderLine (displayName u) (sortFacts (analyze u)))) :=
  ⟨by decide, fun l => ⟨sortFacts_pairwise l, sortFacts_perm l⟩, fun _ _ => rfl⟩

/-- C5: for every input list and worker count K ≥ 1, the concatenation of the
K shards in shard order is exactly the original input list (order preserved,
nothing duplicated, nothing omitted), and there are exactly K shards. -/
theorem claim5_partition_complete (units : List Str) (K : Nat) (hK : 1 ≤ K) :
    (shards units K).flatten = units ∧ (shards units K).length = K :=
  ⟨shards_flatten units K hK, shards_length units K⟩

/-- Witness for C5 at a concrete input (N = 3, K = 2). -/
theorem claim5_witness :
    1 ≤ 2 ∧ ((shards [[97], [98], [99]] 2).flatten = [[97], [98], [99]]
      ∧ (shards [[97], [98], [99]] 2).length = 2) :=
  ⟨by decide, claim5_partition_complete [[97], [98], [99]] 2 (by decide)⟩

/-- C6: the partitioner produces exactly K shards; shards 0..K-2 each hold
`floor(N/K)` units and the final shard holds the remaining
`N - (K-1)*floor(N/K)`; relative order is preserved within and across shards
(their concatenation is the input); and for N = 5, K = 2 the shards are
`[u0, u1]` and `[u2, u3, u4]` (units encoded as the byte strings "u0".."u4"). -/
theorem claim6_partition_sizes (units : List Str) (K : Nat) (hK : 1 ≤ K) :
    (shards units K).length = K
      ∧ (∀ i, i < K - 1 → (shard units K i).length = units.length / K)
      ∧ (shard units K (K - 1)).length
          = units.length - (K - 1) * (units.length / K)
      ∧ (shards units K).flatten = units
      ∧ shards [[117, 48], [117, 49], [117, 50], [117, 51], [117, 52]] 2
          = [[[117, 48], [117, 49]], [[117, 50], [117, 51], [117, 52]]] :=
  ⟨shards_length units K, fun i hi => shard_length_of_lt units K i hi,
    shard_last_length units K, shards_flatten units K hK, by decide⟩

/-- Witness for C6 at a concrete input (N = 3, K = 2). -/
theorem claim6_witness :
    1 ≤ 2 ∧ (shards [[97], [98], [99]] 2).length = 2 :=
  ⟨by decide, (claim6_partition_sizes [[97], [98], [99]] 2 (by decide)).1⟩

/-- C7 counterexample: for N = 1 < K = 2, shard 0 (a leading shard) is empty
and the single unit sits in the final shard — the opposite of the claim that
the units occupy the earliest shards and only trailing shards are empty.
(`chunk_size = N / K = 0` empties every shard except the last, which absorbs
the whole list.) -/
theorem claim7_cex :
    [[97]].length < 2 ∧ shard [[97]] 2 0 = [] ∧ shard [[97]] 2 1 = [[97]]
      ∧ shard [[97]] 2 0 ≠ [[97]] := by
  decide

/-- C7 amended: for every input list with N < K, the empty shards are the
leading shards (shards 0..K-2 are all empty) and all units occupy the final
shard; a worker assigned an empty shard completes with an empty record set,
contributing no lines to the report. -/
theorem claim7_empty_shards_leading (units : List Str) (K : Nat)
    (hNK : units.length < K) :
    (∀ i, i < K - 1 → shard units K i = [])
      ∧ shard units K (K - 1) = units
      ∧ (∀ analyze : Str → List Str, workerLines analyze [] = []) := by
  have hc : units.length / K = 0 := Nat.div_eq_of_lt hNK
  refine ⟨?_, ?_, fun _ => rfl⟩
  · intro i hi
    rw [shard_of_lt units K i hi, hc]
    simp
  · rw [shard_last units K, hc]
    simp

/-- Witness for the amended C7 at a concrete input (N = 1, K = 2). -/
theorem claim7_witness :
    [[97]].length < 2 ∧ shard [[97]] 2 (2 - 1) = [[97]] :=
  ⟨by decide, (claim7_empty_shards_leading [[97]] 2 (by decide)).2.1⟩

/-- C8: the report consists of exactly the rendered lines of the successfully
processed units, one per unit (as a multiset: the report is a permutation of
the per-unit lines); each line is the display name followed by the unit's
normalized facts, space-separated; and a unit with zero facts yields a line
containing only its display name. -/
theorem claim8_one_line_per_unit (analyze : Str → List Str)
    (toolStatus : Nat → Nat) (units : List Str) (K : Nat) (hK : 1 ≤ K) :
    (pipeline analyze toolStatus units K).report.Perm
        (units.map (workerLine analyze))
      ∧ (∀ u, workerLine analyze u
          = renderLine (displayName u) (sortFacts (analyze u)))
      ∧ (∀ u, analyze u = [] → workerLine analyze u = displayName u) := by
  refine ⟨?_, fun _ => rfl, ?_⟩
  · have h := pipeline_flatten analyze units K hK
    show (sortLines (((List.range K).map
      (fun i => workerLines analyze (shard units K i))).flatten)).Perm _
    rw [h]
    exact sortLines_perm _
  · intro u hu
    rw [workerLine, hu]
    show renderLine (displayName u) [] = displayName u
    simp [renderLine]


/-- Witness for C8 at a concrete input (one unit, no facts, K = 1). -/
theorem claim8_witness :
    1 ≤ 1 ∧ (pipeline (fun _ => []) (fun _ => 0) [[97, 47, 98]] 1).report.Perm
        ([[97, 47, 98]].map (workerLine (fun _ => []))) :=
  ⟨by decide,
    (claim8_one_line_per_unit (fun _ => []) (fun _ => 0) [[97, 47, 98]] 1
      (by decide)).1⟩

/-- C9: in the main-thread trace, every occurrence of a join event precedes
every occurrence of the merge event, and each of the K workers is joined
somewhere in the trace: the merge step never begins before the full join
barrier. -/
theorem claim9_join_before_merge (K i p q : Nat) (hi : i < K)
    (hp : (mainTrace K)[p]? = some (Ev.join i))
    (hq : (mainTrace K)[q]? = some Ev.merge) :
    p < q ∧ Ev.join i ∈ mainTrace K := by
  have hcp := mainTrace_getElem K p
  have hcq := mainTrace_getElem K q
  rw [hp] at hcp
  rw [hq] at hcq
  constructor
  · have hpK : p < 2 * K := by
      by_cases h1 : p < K
      · omega
      · by_cases h2 : p < 2 * K
        · exact h2
        · by_cases h3 : p = 2 * K
          · rw [if_neg h1, if_neg h2, if_pos h3] at hcp
            simp at hcp
          · rw [if_neg h1, if_neg h2, if_neg h3] at hcp
            simp at hcp
    have hqK : q = 2 * K := by
      by_cases h1 : q < K
      · rw [if_pos h1] at hcq
        simp at hcq
      · by_cases h2 : q < 2 * K
        · rw [if_neg h1, if_pos h2] at hcq
          simp at hcq
        · by_cases h3 : q = 2 * K
          · exact h3
          · rw [if_neg h1, if_neg h2, if_neg h3] at hcq
            simp at hcq
    omega
  · have hchar := mainTrace_getElem K (K + i)
    rw [if_neg (by omega), if_pos (by omega)] at hchar
    have he : K + i - K = i := by omega
    rw [he] at hchar
    exact List.getElem?_mem hchar

/-- Witness for C9 at a concrete input: K = 1, the join of worker 0 is at
index 1, the merge at index 2. -/
theorem claim9_witness :
    0 < 1 ∧ (mainTrace 1)[1]? = some (Ev.join 0)
      ∧ (mainTrace 1)[2]? = some Ev.merge
      ∧ (1 < 2 ∧ Ev.join 0 ∈ mainTrace 1) :=
  ⟨by decide, by decide, by decide,
    claim9_join_before_merge 1 0 1 2 (by decide) (by decide) (by decide)⟩

/-- C10: for a unit whose identifier contains a slash, the display name is
the substring after the last slash; an identifier containing a slash always
has such a last-slash position; and an identifier with no slash is used
verbatim. (The length bound keeps the `size_t`-to-`int` narrowing of the
source value-preserving.) -/
theorem claim10_display_basename (filename : Str)
    (hlen : filename.length < 2 ^ 31) :
    (∀ p, lastSlashIdx filename = some p →
        displayName filename = filename.drop (p + 1)
          ∧ filename[p]? = some 47
          ∧ ∀ q, p < q → filename[q]? ≠ some 47)
      ∧ (47 ∈ filename → ∃ p, lastSlashIdx filename = some p)
      ∧ (¬ 47 ∈ filename → displayName filename = filename) := by
  refine ⟨?_, ?_, ?_⟩
  · intro p hp
    obtain ⟨h1, h2⟩ := lastSlashIdx_some filename p hp
    exact ⟨displayName_of_some filename p hp hlen, h1, h2⟩
  · intro hmem
    cases h : lastSlashIdx filename with
    | none => exact absurd hmem (lastSlashIdx_none filename h)
    | some r => exact ⟨r, rfl⟩
  · intro hmem
    cases h : lastSlashIdx filename with
    | none => exact displayName_of_none filename h
    | some r =>
      obtain ⟨h1, -⟩ := lastSlashIdx_some filename r h
      exact absurd (List.getElem?_mem h1) hmem

/-- Witness for C10 at a concrete input: the identifier "a/b/main.cpp" (as
ASCII bytes), whose last slash is at index 3, displays as "main.cpp". -/
theorem claim10_witness :
    ([97, 47, 98, 47, 109, 97, 105, 110, 46, 99, 112, 112] : Str).length < 2 ^ 31
      ∧ displayName [97, 47, 98, 47, 109, 97, 105, 110, 46, 99, 112, 112]
          = ([97, 47, 98, 47, 109, 97, 105, 110, 46, 99, 112, 112] : Str).drop 4
      ∧ ([97, 47, 98, 47, 109, 97, 105, 110, 46, 99, 112, 112] : Str).drop 4
          = [109, 97, 105, 110, 46, 99, 112, 112] := by
  refine ⟨by decide, ?_, by decide⟩
  exact ((claim10_display_basename
    [97, 47, 98, 47, 109, 97, 105, 110, 46, 99, 112, 112] (by decide)).1
    3 (by decide)).1

end AstVisitor1
